import Mathlib

/-!
Verification of the core protocol stack of an asynchronous MPC second-price
auction (prime-field polynomial arithmetic, bivariate secret sharing, CSS
happiness voting, ABA aux selection and common coin, randomness beacon, and
the arithmetic auction circuit).

The development shallowly embeds the relevant functions:

* `field.py` values are always normalised into `[0, p)` with `p = 2^31 - 1`,
  so field elements are modelled as `ZMod p` and polynomials as LSB-first
  coefficient lists.
* `circuit.py` computes on plain Python integers (inputs are not reduced
  before use), so the circuit is modelled over `ℤ` with the modulus applied
  exactly where the source applies it.  Lean `Int` division/modulo (`/`, `%`)
  are Euclidean and agree with Python's `//` and `%` for positive divisors.
* Stateful protocol objects (beacon) become explicit state-passing functions;
  blocking reads return `Option` (`none` = the caller is still blocked).
-/

/-- The prime modulus `p = 2^31 - 1` of `Field` in `field.py`. -/
def P : ℕ := 2 ^ 31 - 1

/-- The prime `p = 2^31 - 1` is the Mersenne prime M31, so `F_p` really is a field. -/
theorem P_prime : Nat.Prime P := by
  have h : P = mersenne 31 := by norm_num [P, mersenne]
  rw [h]
  exact lucas_lehmer_sufficiency 31 (by norm_num) (by norm_num)

instance : Fact (Nat.Prime P) := ⟨P_prime⟩

/-- The field `F_p`: `field.py` keeps every stored value in `[0, p)` (each
`Field` operation reduces mod `p`), so its elements are exactly `ZMod P`. -/
abbrev Fp := ZMod P

namespace PyField

/-! `class Field` of `field.py`, as it acts on raw Python integers (used by
`circuit.py`, whose inputs are unreduced ints).  Python's `%` on a positive
modulus returns a value in `[0, p)`, as does Lean's `Int.emod`. -/

/-- The modulus as an integer. -/
def M : ℤ := 2 ^ 31 - 1

/-- Source `Field.add(a, b) = (a + b) % MODULUS`. -/
def add (a b : ℤ) : ℤ := (a + b) % M

/-- Source `Field.sub(a, b) = (a - b) % MODULUS`. -/
def sub (a b : ℤ) : ℤ := (a - b) % M

/-- Source `Field.mul(a, b) = (a * b) % MODULUS`. -/
def mul (a b : ℤ) : ℤ := (a * b) % M

end PyField

namespace Circuit

/-! `class ArithmeticCircuit` of `circuit.py`. -/

/-- Source `ArithmeticCircuit.bit_decompose(value, k)`: the list
`[(value >> i) & 1 for i in range(k)]`, LSB first.  For any Python integer,
`(value >> i) & 1` equals floor-division by `2^i` followed by `% 2`, which is
`value / 2 ^ i % 2` on Lean integers. -/
def bit_decompose (value : ℤ) (k : ℕ) : List ℤ :=
  (List.range k).map (fun i => value / 2 ^ i % 2)

/-- The enable flag of `compare_bits` for position `j`:
`Π_{l=j+1..k-1} (1 − (a_l − b_l)²)`, accumulated in the source's loop order
(`for l in range(j + 1, k)`). -/
def compareEnable (a_bits b_bits : List ℤ) (j : ℕ) : ℤ :=
  (List.range' (j + 1) (a_bits.length - (j + 1))).foldl
    (fun enable l =>
      let diff := PyField.sub (a_bits.getD l 0) (b_bits.getD l 0)
      PyField.mul enable (PyField.sub 1 (PyField.mul diff diff)))
    1

/-- Source `ArithmeticCircuit.compare_bits(a_bits, b_bits)`:
`c = Σ_{j=k-1..0} a_j·(1 − b_j) · Π_{l=j+1..k-1} (1 − (a_l − b_l)²)`,
accumulated exactly in the source's loop order (`for j in range(k-1, -1, -1)`)
with `Field` arithmetic. -/
def compare_bits (a_bits b_bits : List ℤ) : ℤ :=
  (List.range a_bits.length).reverse.foldl
    (fun result j =>
      PyField.add result (PyField.mul
        (PyField.mul (a_bits.getD j 0) (PyField.sub 1 (b_bits.getD j 0)))
        (compareEnable a_bits b_bits j)))
    0

/-- Source `ArithmeticCircuit.max_two(a, b, a_bits, b_bits)`:
`c·a + (1 − c)·b` with `c = compare_bits(a_bits, b_bits)`. -/
def max_two (a b : ℤ) (a_bits b_bits : List ℤ) : ℤ :=
  let c := compare_bits a_bits b_bits
  PyField.add (PyField.mul c a) (PyField.mul (PyField.sub 1 c) b)

/-- One pass of the tournament loop body of `find_max`: consecutive pairs are
compared with `max_two`; the winner of the pair is the left entry when
`max_val == current_values[i]`, else the right entry; an odd straggler is
carried over.  Entries are `(value, index, bits)`. -/
def tournamentRound : List (ℤ × ℤ × List ℤ) → List (ℤ × ℤ × List ℤ)
  | x :: y :: rest =>
      (if max_two x.1 y.1 x.2.2 y.2.2 = x.1 then x else y) :: tournamentRound rest
  | l => l

/-- The `while len(current_values) > 1` loop of `find_max`, with fuel (one
round at least halves the list, so `values.length` rounds always suffice). -/
def tournamentGo : ℕ → List (ℤ × ℤ × List ℤ) → List (ℤ × ℤ × List ℤ)
  | 0, l => l
  | fuel + 1, l => if l.length ≤ 1 then l else tournamentGo fuel (tournamentRound l)

/-- Source `ArithmeticCircuit.find_max(values, k)`: returns `(max_value, winner_index)`;
`(0, -1)` on an empty list, `(values[0], 0)` on a singleton, otherwise the
surviving entry of the tournament over `(value, index, bit_decompose value k)`
entries. -/
def find_max (values : List ℤ) (k : ℕ) : ℤ × ℤ :=
  match values with
  | [] => (0, -1)
  | [v] => (v, 0)
  | _ =>
    let entries := values.enum.map (fun iv => (iv.2, (iv.1 : ℤ), bit_decompose iv.2 k))
    let final := tournamentGo values.length entries
    ((final.headD (0, -1, [])).1, (final.headD (0, -1, [])).2.1)

end Circuit

namespace Poly

/-! `class Polynomial` of `field.py`: LSB-first coefficient lists over `F_p`. -/

/-- Source `Polynomial.eval(x)`: Horner's method over coefficients high→low
(`for coeff in reversed(self.coeffs): result = result * x + coeff`). -/
def eval (coeffs : List Fp) (x : Fp) : Fp :=
  coeffs.reverse.foldl (fun result c => result * x + c) 0

/-- The trailing-zero stripping done by the `Polynomial` constructor
(`while len(coeffs) > 1 and coeffs[-1] == 0: coeffs.pop()`). -/
def normalize (coeffs : List Fp) : List Fp :=
  let r := coeffs.reverse.dropWhile (· = 0)
  if r = [] then coeffs.take 1 else r.reverse

/-- Source `Polynomial.__add__`: pad the shorter operand with zeros, add pointwise,
then the constructor re-normalises. -/
def add (a b : List Fp) : List Fp :=
  normalize ((List.range (max a.length b.length)).map (fun i => a.getD i 0 + b.getD i 0))

/-- The scalar branch of `Polynomial.__mul__` (`other` an integer):
multiply every coefficient. -/
def smul (a : List Fp) (c : Fp) : List Fp :=
  normalize (a.map (fun x => x * c))

/-- The polynomial branch of `Polynomial.__mul__`: schoolbook convolution into
a length `len(a) + len(b) - 1` array (`result[i + j] += a[i] * b[j]`). -/
def mul (a b : List Fp) : List Fp :=
  normalize ((List.range (a.length + b.length - 1)).map
    (fun m => ∑ i ∈ Finset.range a.length, ∑ j ∈ Finset.range b.length,
      if i + j = m then a.getD i 0 * b.getD j 0 else 0))

/-- Source `Field.inv` via Fermat: `a^(p-2) mod p`.  (The source raises on `a = 0`;
this total model returns `0` there, and is only used under a
distinct-points hypothesis that keeps the argument nonzero.) -/
def finv (a : Fp) : Fp := a ^ (P - 2)

/-- The Lagrange basis polynomial built inside `Polynomial.interpolate` for
sample index `i`: starting from `[1]`, for every `j ≠ i` multiply by
`(x - x_j)` and by `inv(x_i - x_j)`. -/
def lagrangeBasis (points : List (Fp × Fp)) (i : ℕ) : List Fp :=
  (List.range points.length).foldl
    (fun basis j =>
      if i ≠ j then
        smul (mul basis [-(points.getD j (0, 0)).1, 1])
          (finv ((points.getD i (0, 0)).1 - (points.getD j (0, 0)).1))
      else basis)
    [1]

/-- Source `Polynomial.interpolate(points)`: `Σ_i y_i · L_i(x)`, accumulated in the
source's loop order starting from the zero polynomial `[0]`. -/
def interpolate (points : List (Fp × Fp)) : List Fp :=
  (List.range points.length).foldl
    (fun result i => add result (smul (lagrangeBasis points i) (points.getD i (0, 0)).2))
    [0]

/-- Source `BiVariatePolynomial.eval(x, y)`: sum of `a_{i,j}·x^i·y^j` over the
`(d+1) × (d+1)` coefficient grid. -/
def bivarEval (d : ℕ) (c : ℕ → ℕ → Fp) (x y : Fp) : Fp :=
  ∑ i ∈ Finset.range (d + 1), ∑ j ∈ Finset.range (d + 1), c i j * x ^ i * y ^ j

/-- Source `BiVariatePolynomial.row_polynomial(i)`: coefficient `j` is
`Σ_k a_{k,j}·i^k`; the result goes through the `Polynomial` constructor. -/
def rowPolynomial (d : ℕ) (c : ℕ → ℕ → Fp) (i : Fp) : List Fp :=
  normalize ((List.range (d + 1)).map
    (fun j => ∑ k ∈ Finset.range (d + 1), c k j * i ^ k))

/-- Source `BiVariatePolynomial.col_polynomial(i)`: coefficient `j` is
`Σ_k a_{j,k}·i^k`. -/
def colPolynomial (d : ℕ) (c : ℕ → ℕ → Fp) (i : Fp) : List Fp :=
  normalize ((List.range (d + 1)).map
    (fun j => ∑ k ∈ Finset.range (d + 1), c j k * i ^ k))

end Poly

namespace CSS

/-! `class CompleteSecretSharing` of `css.py` (the receiver-side decision
logic; sub-shares are `(sender j, row_eval, col_eval)` triples). -/

/-- Source `_check_happy(dealer)`: `False` when no `CSS_SHARE` was recorded for the
dealer; otherwise, for every stored sub-share `(j, re, ce)`, require
`my_row.eval(j) == re` and `my_col.eval(self.party_id) == ce` (the source
evaluates the column polynomial at the receiver's OWN id). -/
def check_happy (party_id : Fp) (polys : Option (List Fp × List Fp))
    (sub_shares : List (Fp × Fp × Fp)) : Bool :=
  match polys with
  | none => false
  | some rc =>
      sub_shares.all (fun s =>
        decide (Poly.eval rc.1 s.1 = s.2.1) && decide (Poly.eval rc.2 party_id = s.2.2))

/-- The happiness check as the specification words it: the column polynomial is
evaluated at the SENDING party `j` (`my_col(j) == ce`). -/
def check_happy_spec (party_id : Fp) (polys : Option (List Fp × List Fp))
    (sub_shares : List (Fp × Fp × Fp)) : Bool :=
  match polys with
  | none => false
  | some rc =>
      sub_shares.all (fun s =>
        decide (Poly.eval rc.1 s.1 = s.2.1) && decide (Poly.eval rc.2 s.1 = s.2.2))

/-- Source `_handle_happy` only increments `happy_count` when the payload carries
`happy = True`, so the count of a message list is the number of `true`s. -/
def happy_count (msgs : List Bool) : ℕ :=
  (msgs.filter id).length

/-- The finalisation of `receive_share`: return `(row, col)` when
`is_happy and dealer in self.row_polys`, else the zero polynomials
`(Polynomial([0]), Polynomial([0]))`. -/
def receive_share_result (party_id : Fp) (polys : Option (List Fp × List Fp))
    (sub_shares : List (Fp × Fp × Fp)) : List Fp × List Fp :=
  match polys, check_happy party_id polys sub_shares with
  | some rc, true => rc
  | _, _ => ([0], [0])

end CSS

namespace Beacon

/-! `class RandomnessBeacon` of `beacon.py`, as an explicit state machine.
`Field.random()` is modelled by passing the fresh value in as a parameter;
the returned `Option` is the caller's view (`none` = still blocked in the
`while index not in self.values` wait). -/

/-- Beacon state: the monotone `self.index` counter, the per-index requester
sets, and the per-index generated values. -/
structure State where
  index : ℕ
  requests : ℕ → Finset ℕ
  values : ℕ → Option ℕ

/-- The freshly constructed beacon. -/
def initState : State := ⟨0, fun _ => ∅, fun _ => none⟩

/-- Source `RandomnessBeacon.request(party_id, index)` with fault bound `f`
(`self.threshold = f + 1`): resolve `index` (`None` uses and post-increments
`self.index`), add the requester, generate `fresh` once the requester set
reaches `f + 1` and no value exists yet, and return the value if present.
Returns (new state, resolved index, caller's view of the value). -/
def request (f : ℕ) (s : State) (party : ℕ) (idx : Option ℕ) (fresh : ℕ) :
    State × ℕ × Option ℕ :=
  let is : ℕ × State :=
    match idx with
    | none => (s.index, { s with index := s.index + 1 })
    | some i => (i, s)
  let i := is.1
  let s1 := is.2
  let reqs := insert party (s1.requests i)
  let s2 := { s1 with requests := Function.update s1.requests i reqs }
  let s3 := if f + 1 ≤ reqs.card ∧ s2.values i = none then
      { s2 with values := Function.update s2.values i (some fresh) }
    else s2
  (s3, i, s3.values i)

/-- Run a list of request events `(party, index?, fresh)` through the beacon. -/
def run (f : ℕ) (s : State) : List (ℕ × Option ℕ × ℕ) → State
  | [] => s
  | e :: es => run f (request f s e.1 e.2.1 e.2.2).1 es

/-- The threshold invariant: a generated value implies at least `f + 1`
distinct recorded requesters for that index. -/
def Inv (f : ℕ) (s : State) : Prop :=
  ∀ i v, s.values i = some v → f + 1 ≤ (s.requests i).card

end Beacon

namespace ABA

/-! `class BinaryAgreement` of `aba.py` (the local, deterministic pieces of
`_run_round`). -/

/-- The AUX-value selection of `_run_round`, given the round's EST counts
`c0 = est_count[r][0]`, `c1 = est_count[r][1]` and the party's current
`estimate`: the estimate itself when its count reaches `n - f`; otherwise the
strict plurality bit; otherwise `None`. -/
def auxValue (n f : ℕ) (c0 c1 : ℕ) (estimate : ℕ) : Option ℕ :=
  if n - f ≤ (if estimate = 0 then c0 else c1) then some estimate
  else if c0 > c1 then some 0
  else if c1 > c0 then some 1
  else none

/-- The beacon query of the coin step in `_run_round`:
`coin = await self.beacon.request(self.party_id)` — the call passes NO index
argument, so the beacon resolves it to its own sequential counter. -/
def coinRequest (f : ℕ) (s : Beacon.State) (party : ℕ) (fresh : ℕ) :
    Beacon.State × ℕ × Option ℕ :=
  Beacon.request f s party none fresh

end ABA

namespace Party

/-! `class MPCParty` of `party.py` (the local share-store operations).  The
`self.shared_values` dict is a partial map from secret ids to stored shares;
`dict.get(key, 0)` is `Option.getD _ 0`. -/

/-- Source `MPCParty.local_add(secret_id1, secret_id2, result_id)`: missing operands
default to `0`, the `Field.add` result is stored under `result_id` and
returned.  Returns (updated store, returned value). -/
def local_add (shared_values : String → Option Fp) (id1 id2 result_id : String) :
    (String → Option Fp) × Fp :=
  let share1 := (shared_values id1).getD 0
  let share2 := (shared_values id2).getD 0
  let result := share1 + share2
  (Function.update shared_values result_id (some result), result)

/-- Source `MPCParty.local_multiply_constant(secret_id, constant, result_id)`:
a missing operand defaults to `0`, the `Field.mul` result is stored under
`result_id` and returned. -/
def local_multiply_constant (shared_values : String → Option Fp)
    (secret_id : String) (constant : Fp) (result_id : String) :
    (String → Option Fp) × Fp :=
  let share := (shared_values secret_id).getD 0
  let result := share * constant
  (Function.update shared_values result_id (some result), result)

end Party

/-- Bridge into Mathlib polynomials: the polynomial whose (LSB-first)
coefficient list is `l`. -/
noncomputable def toP (l : List Fp) : Polynomial Fp :=
  ∑ i ∈ Finset.range l.length, Polynomial.C (l.getD i 0) * Polynomial.X ^ i

/-! ### Helper lemmas -/

/-- Every entry `bit_decompose` produces is `0` or `1` (Euclidean `% 2`). -/
theorem bit_decompose_getD (v : ℤ) (k j : ℕ) :
    (Circuit.bit_decompose v k).getD j 0 = 0 ∨ (Circuit.bit_decompose v k).getD j 0 = 1 := by
  unfold Circuit.bit_decompose
  rcases lt_or_le j k with h | h
  · rw [List.getD_eq_getElem _ _ (by simpa using h)]
    simp only [List.getElem_map, List.getElem_range]
    exact Int.emod_two_eq_zero_or_one _
  · rw [List.getD_eq_default _ _ (by simpa using h)]
    exact Or.inl rfl

/-- Folding `Field.add` over contributions that are all zero stays zero. -/
theorem foldl_pyadd_zero (g : ℕ → ℤ) (hg : ∀ j, g j = 0) :
    ∀ l : List ℕ, l.foldl (fun r j => PyField.add r (g j)) 0 = 0 := by
  intro l
  induction l with
  | nil => rfl
  | cons j rest ih =>
      rw [List.foldl_cons, hg j]
      have h0 : PyField.add 0 0 = 0 := by norm_num [PyField.add, PyField.M]
      rw [h0]
      exact ih

/-- Binary digit sums on ℕ: the `k` low-order base-2 digits reassemble to
`n % 2^k`. -/
theorem natBitSum (n : ℕ) : ∀ k : ℕ,
    ∑ i ∈ Finset.range k, n / 2 ^ i % 2 * 2 ^ i = n % 2 ^ k := by
  intro k
  induction k with
  | zero => simp [Nat.mod_one]
  | succ k ih =>
      rw [Finset.sum_range_succ, ih, pow_succ, Nat.mod_mul]
      ring

/-- The resolved index of a beacon request: `None` uses `self.index`. -/
theorem beacon_request_idx (f : ℕ) (s : Beacon.State) (party : ℕ) (idx : Option ℕ)
    (fresh : ℕ) :
    (Beacon.request f s party idx fresh).2.1 = idx.getD s.index := by
  cases idx <;> rfl

/-- The post-state requester sets of a beacon request. -/
theorem beacon_request_requests (f : ℕ) (s : Beacon.State) (party : ℕ) (idx : Option ℕ)
    (fresh : ℕ) :
    ((Beacon.request f s party idx fresh).1).requests =
      Function.update s.requests (idx.getD s.index)
        (insert party (s.requests (idx.getD s.index))) := by
  cases idx <;>
  · unfold Beacon.request
    dsimp only
    simp only [Option.getD_none, Option.getD_some]
    split_ifs <;> rfl

/-- The post-state values of a beacon request. -/
theorem beacon_request_values (f : ℕ) (s : Beacon.State) (party : ℕ) (idx : Option ℕ)
    (fresh : ℕ) :
    ((Beacon.request f s party idx fresh).1).values =
      if f + 1 ≤ (insert party (s.requests (idx.getD s.index))).card ∧
          s.values (idx.getD s.index) = none then
        Function.update s.values (idx.getD s.index) (some fresh)
      else s.values := by
  cases idx <;>
  · unfold Beacon.request
    dsimp only
    simp only [Option.getD_none, Option.getD_some]
    split_ifs <;> rfl

/-- The returned view of a request is the post-state value at the resolved
index. -/
theorem beacon_request_ret (f : ℕ) (s : Beacon.State) (party : ℕ) (idx : Option ℕ)
    (fresh : ℕ) :
    (Beacon.request f s party idx fresh).2.2 =
      ((Beacon.request f s party idx fresh).1).values
        ((Beacon.request f s party idx fresh).2.1) := by
  cases idx <;> rfl

/-- One beacon request never overwrites an existing value. -/
theorem beacon_request_values_mono (f : ℕ) (s : Beacon.State) (party : ℕ) (idx : Option ℕ)
    (fresh : ℕ) (i : ℕ) (v : ℕ) (h : s.values i = some v) :
    ((Beacon.request f s party idx fresh).1).values i = some v := by
  rw [beacon_request_values]
  split_ifs with hcond
  · rw [Function.update_apply]
    split_ifs with hi
    · rw [hi] at h
      rw [h] at hcond
      exact absurd hcond.2 (by simp)
    · exact h
  · exact h

/-- One beacon request only grows a requester set. -/
theorem beacon_request_requests_subset (f : ℕ) (s : Beacon.State) (party : ℕ)
    (idx : Option ℕ) (fresh : ℕ) (i : ℕ) :
    s.requests i ⊆ ((Beacon.request f s party idx fresh).1).requests i := by
  rw [beacon_request_requests, Function.update_apply]
  split_ifs with hi
  · rw [hi]
    exact Finset.subset_insert _ _
  · exact subset_rfl

/-- One beacon request preserves the threshold invariant. -/
theorem beacon_request_inv (f : ℕ) (s : Beacon.State) (party : ℕ) (idx : Option ℕ)
    (fresh : ℕ) (hs : Beacon.Inv f s) :
    Beacon.Inv f (Beacon.request f s party idx fresh).1 := by
  intro i v hv
  rw [beacon_request_values] at hv
  rw [beacon_request_requests, Function.update_apply]
  split_ifs at hv ⊢ with hpt hgen hgen2
  · exact hgen.1
  · have h1 := hs i v hv
    rw [hpt] at h1
    exact le_trans h1 (Finset.card_le_card (Finset.subset_insert _ _))
  · rw [Function.update_apply, if_neg hpt] at hv
    exact hs i v hv
  · exact hs i v hv

/-- Values persist across any run of beacon requests. -/
theorem beacon_run_values_mono (f : ℕ) (es : List (ℕ × Option ℕ × ℕ)) :
    ∀ (s : Beacon.State) (i v : ℕ), s.values i = some v →
      (Beacon.run f s es).values i = some v := by
  induction es with
  | nil => exact fun s i v h => h
  | cons e rest ih =>
      intro s i v h
      exact ih _ i v (beacon_request_values_mono f s e.1 e.2.1 e.2.2 i v h)

/-- The threshold invariant is preserved by any run of beacon requests. -/
theorem beacon_run_inv (f : ℕ) (es : List (ℕ × Option ℕ × ℕ)) :
    ∀ s : Beacon.State, Beacon.Inv f s → Beacon.Inv f (Beacon.run f s es) := by
  induction es with
  | nil => exact fun s h => h
  | cons e rest ih =>
      intro s h
      exact ih _ (beacon_request_inv f s e.1 e.2.1 e.2.2 h)

/-- Running a concatenation of event lists is running them in sequence. -/
theorem beacon_run_append (f : ℕ) (es1 es2 : List (ℕ × Option ℕ × ℕ)) :
    ∀ s : Beacon.State, Beacon.run f s (es1 ++ es2) = Beacon.run f (Beacon.run f s es1) es2 := by
  induction es1 with
  | nil => exact fun s => rfl
  | cons e rest ih => exact fun s => ih _

/-- Horner evaluation peels the constant coefficient. -/
theorem poly_eval_cons (c : Fp) (t : List Fp) (x : Fp) :
    Poly.eval (c :: t) x = Poly.eval t x * x + c := by
  simp [Poly.eval, List.foldl_append]

/-- Horner evaluation computes the coefficient-weighted power sum. -/
theorem poly_eval_eq_sum (l : List Fp) (x : Fp) :
    Poly.eval l x = ∑ i ∈ Finset.range l.length, l.getD i 0 * x ^ i := by
  induction l with
  | nil => simp [Poly.eval]
  | cons c t ih =>
      rw [poly_eval_cons, ih, List.length_cons, Finset.sum_range_succ']
      simp only [List.getD_cons_succ, List.getD_cons_zero, pow_zero, mul_one,
        Finset.sum_mul]
      congr 1
      refine Finset.sum_congr rfl fun i _ => ?_
      ring

/-- Reading a mapped range with `getD`. -/
theorem getD_range_map (f : ℕ → Fp) (n i : ℕ) :
    ((List.range n).map f).getD i 0 = if i < n then f i else 0 := by
  rcases lt_or_le i n with h | h
  · rw [List.getD_eq_getElem _ _ (by simpa using h), if_pos h]
    simp
  · rw [List.getD_eq_default _ _ (by simpa using h), if_neg (not_lt.mpr h)]

/-- Reading an all-zero list with `getD` gives zero. -/
theorem getD_zeros (z : List Fp) (hz : ∀ x ∈ z, x = 0) (i : ℕ) : z.getD i 0 = 0 := by
  rcases lt_or_le i z.length with h | h
  · rw [List.getD_eq_getElem _ _ h]
    exact hz _ (List.getElem_mem h)
  · exact List.getD_eq_default _ _ h

/-- Appending an all-zero tail does not change `getD` with default zero. -/
theorem getD_append_zeros (a z : List Fp) (hz : ∀ x ∈ z, x = 0) (i : ℕ) :
    (a ++ z).getD i 0 = a.getD i 0 := by
  rcases lt_or_le i a.length with h | h
  · exact List.getD_append a z 0 i h
  · rw [List.getD_append_right a z 0 i h, List.getD_eq_default a 0 h]
    exact getD_zeros z hz _

/-- The `Polynomial` constructor's trailing-zero stripping preserves every
coefficient read with default zero. -/
theorem normalize_getD (l : List Fp) (i : ℕ) : (Poly.normalize l).getD i 0 = l.getD i 0 := by
  unfold Poly.normalize
  have hsplit := List.takeWhile_append_dropWhile (fun c : Fp => decide (c = 0)) l.reverse
  have hzeros : ∀ x ∈ l.reverse.takeWhile (fun c : Fp => decide (c = 0)), x = 0 := by
    intro x hx
    simpa using List.mem_takeWhile_imp hx
  have hl : l = (l.reverse.dropWhile (fun c : Fp => decide (c = 0))).reverse ++
      (l.reverse.takeWhile (fun c : Fp => decide (c = 0))).reverse := by
    conv_lhs => rw [← List.reverse_reverse l, ← hsplit]
    rw [List.reverse_append]
  dsimp only
  split_ifs with hr
  · have hallz : ∀ x ∈ l, x = 0 := by
      intro x hx
      have hx' : x ∈ l.reverse := List.mem_reverse.mpr hx
      rw [← hsplit] at hx'
      rcases List.mem_append.mp hx' with h | h
      · exact hzeros x h
      · rw [hr] at h
        simp at h
    rw [getD_zeros _ hallz i, getD_zeros _ (fun x hx => hallz x (List.take_subset 1 l hx)) i]
  · conv_rhs => rw [hl]
    rw [getD_append_zeros _ _ (fun x hx => hzeros x (List.mem_reverse.mp hx)) i]

/-- Trailing-zero stripping does not change Horner evaluation. -/
theorem poly_eval_normalize (l : List Fp) (x : Fp) :
    Poly.eval (Poly.normalize l) x = Poly.eval l x := by
  rw [poly_eval_eq_sum, poly_eval_eq_sum]
  have hext : ∀ (a : List Fp) (N : ℕ), a.length ≤ N →
      ∑ i ∈ Finset.range a.length, a.getD i 0 * x ^ i =
        ∑ i ∈ Finset.range N, a.getD i 0 * x ^ i := by
    intro a N hN
    refine Finset.sum_subset (Finset.range_subset.mpr hN) fun i _ hi => ?_
    rw [List.getD_eq_default _ _ (by simpa using hi), zero_mul]
  rw [hext _ (max (Poly.normalize l).length l.length) (le_max_left _ _),
    hext _ (max (Poly.normalize l).length l.length) (le_max_right _ _)]
  exact Finset.sum_congr rfl fun i _ => by rw [normalize_getD]

/-- Evaluation of a normalised mapped-range coefficient list. -/
theorem poly_eval_range_map (f : ℕ → Fp) (n : ℕ) (x : Fp) :
    Poly.eval (Poly.normalize ((List.range n).map f)) x =
      ∑ i ∈ Finset.range n, f i * x ^ i := by
  rw [poly_eval_normalize, poly_eval_eq_sum]
  simp only [List.length_map, List.length_range]
  exact Finset.sum_congr rfl fun i hi => by
    rw [getD_range_map, if_pos (Finset.mem_range.mp hi)]

/-- The bridge `toP` evaluates like Horner evaluation. -/
theorem toP_eval (l : List Fp) (x : Fp) : (toP l).eval x = Poly.eval l x := by
  rw [poly_eval_eq_sum, toP, Polynomial.eval_finset_sum]
  simp

/-- The bridge `toP` written as a sum over any sufficiently large index range. -/
theorem toP_eq_sum_of_le (l : List Fp) (N : ℕ) (h : l.length ≤ N) :
    toP l = ∑ i ∈ Finset.range N, Polynomial.C (l.getD i 0) * Polynomial.X ^ i := by
  refine Finset.sum_subset (Finset.range_subset.mpr h) fun i _ hi => ?_
  rw [List.getD_eq_default _ _ (by simpa using hi), map_zero, zero_mul]

/-- Lists with the same default-zero reads denote the same polynomial. -/
theorem toP_ext (a b : List Fp) (h : ∀ i, a.getD i 0 = b.getD i 0) : toP a = toP b := by
  rw [toP_eq_sum_of_le a (max a.length b.length) (le_max_left _ _),
    toP_eq_sum_of_le b (max a.length b.length) (le_max_right _ _)]
  exact Finset.sum_congr rfl fun i _ => by rw [h]

/-- The constructor's trailing-zero stripping denotes the same polynomial. -/
theorem toP_normalize (l : List Fp) : toP (Poly.normalize l) = toP l :=
  toP_ext _ _ (normalize_getD l)

/-- Addition: `Polynomial.__add__` denotes polynomial addition. -/
theorem toP_add (a b : List Fp) : toP (Poly.add a b) = toP a + toP b := by
  rw [Poly.add, toP_normalize, toP]
  simp only [List.length_map, List.length_range]
  rw [toP_eq_sum_of_le a (max a.length b.length) (le_max_left _ _),
    toP_eq_sum_of_le b (max a.length b.length) (le_max_right _ _),
    ← Finset.sum_add_distrib]
  refine Finset.sum_congr rfl fun i hi => ?_
  rw [getD_range_map, if_pos (Finset.mem_range.mp hi), map_add]
  ring

/-- Scalar `Polynomial.__mul__` denotes multiplication by a constant. -/
theorem toP_smul (a : List Fp) (c : Fp) : toP (Poly.smul a c) = toP a * Polynomial.C c := by
  rw [Poly.smul, toP_normalize, toP, toP]
  simp only [List.length_map]
  rw [Finset.sum_mul]
  refine Finset.sum_congr rfl fun i _ => ?_
  have hg : (a.map (fun v => v * c)).getD i 0 = a.getD i 0 * c := by
    have h0 := List.getD_map (n := i) (fun v => v * c) (l := a) (d := 0)
    rw [zero_mul] at h0
    exact h0
  rw [hg, map_mul]
  ring

/-- Polynomial `Polynomial.__mul__` (schoolbook convolution) denotes
polynomial multiplication. -/
theorem toP_mul (a b : List Fp) : toP (Poly.mul a b) = toP a * toP b := by
  rw [Poly.mul, toP_normalize, toP]
  simp only [List.length_map, List.length_range]
  rw [toP, toP, Finset.sum_mul_sum]
  calc
    ∑ m ∈ Finset.range (a.length + b.length - 1),
        Polynomial.C (((List.range (a.length + b.length - 1)).map
          (fun m => ∑ i ∈ Finset.range a.length, ∑ j ∈ Finset.range b.length,
            if i + j = m then a.getD i 0 * b.getD j 0 else 0)).getD m 0) *
        Polynomial.X ^ m =
      ∑ m ∈ Finset.range (a.length + b.length - 1), ∑ i ∈ Finset.range a.length,
        ∑ j ∈ Finset.range b.length,
          if i + j = m then Polynomial.C (a.getD i 0 * b.getD j 0) * Polynomial.X ^ m
          else 0 := by
      refine Finset.sum_congr rfl fun m hm => ?_
      rw [getD_range_map, if_pos (Finset.mem_range.mp hm)]
      simp only [map_sum, Finset.sum_mul, apply_ite Polynomial.C, map_zero, ite_mul,
        zero_mul]
    _ = ∑ i ∈ Finset.range a.length, ∑ j ∈ Finset.range b.length,
          ∑ m ∈ Finset.range (a.length + b.length - 1),
            if i + j = m then Polynomial.C (a.getD i 0 * b.getD j 0) * Polynomial.X ^ m
            else 0 := by
      rw [Finset.sum_comm]
      exact Finset.sum_congr rfl fun i _ => Finset.sum_comm
    _ = ∑ i ∈ Finset.range a.length, ∑ j ∈ Finset.range b.length,
          Polynomial.C (a.getD i 0) * Polynomial.X ^ i *
            (Polynomial.C (b.getD j 0) * Polynomial.X ^ j) := by
      refine Finset.sum_congr rfl fun i hi => Finset.sum_congr rfl fun j hj => ?_
      rw [Finset.sum_ite_eq, if_pos]
      · rw [map_mul, pow_add]
        ring
      · rw [Finset.mem_range]
        have h1 := Finset.mem_range.mp hi
        have h2 := Finset.mem_range.mp hj
        omega

/-- Fermat: `Field.inv` via Fermat really is the field inverse on nonzero elements. -/
theorem finv_eq_inv (a : Fp) (h : a ≠ 0) : Poly.finv a = a⁻¹ := by
  rw [Poly.finv]
  refine eq_inv_of_mul_eq_one_left ?_
  rw [← pow_succ]
  have hP : P - 2 + 1 = P - 1 := by norm_num [P]
  rw [hP]
  exact ZMod.pow_card_sub_one_eq_one h

/-- The two-element coefficient list `[-y, 1]` denotes `X - C y`. -/
theorem toP_linear (y : Fp) : toP [-y, 1] = Polynomial.X - Polynomial.C y := by
  rw [toP]
  simp [Finset.sum_range_succ]
  ring

/-- The singleton list `[1]` denotes the constant polynomial `1`. -/
theorem toP_one : toP [1] = 1 := by
  rw [toP]
  simp

/-- The singleton list `[0]` denotes the zero polynomial. -/
theorem toP_zero : toP [0] = 0 := by
  rw [toP]
  simp

/-- The basis-building fold inside `interpolate` denotes the partial product
of Lagrange basis divisors. -/
theorem toP_lagrangeBasis_fold (pts : List (Fp × Fp)) (i : ℕ)
    (hne : ∀ j, j < pts.length → j ≠ i →
      (pts.getD i (0, 0)).1 ≠ (pts.getD j (0, 0)).1) :
    ∀ m, m ≤ pts.length →
      toP ((List.range m).foldl
        (fun basis j =>
          if i ≠ j then
            Poly.smul (Poly.mul basis [-(pts.getD j (0, 0)).1, 1])
              (Poly.finv ((pts.getD i (0, 0)).1 - (pts.getD j (0, 0)).1))
          else basis)
        [1]) =
      ∏ j ∈ Finset.range m,
        if i ≠ j then
          Lagrange.basisDivisor (pts.getD i (0, 0)).1 (pts.getD j (0, 0)).1
        else 1 := by
  intro m
  induction m with
  | zero =>
      intro _
      simpa using toP_one
  | succ m ih =>
      intro hm
      rw [List.range_succ, List.foldl_append, List.foldl_cons, List.foldl_nil,
        Finset.prod_range_succ]
      by_cases him : i ≠ m
      · rw [if_pos him, if_pos him, toP_smul, toP_mul, toP_linear,
          ih (Nat.le_of_succ_le hm),
          finv_eq_inv _ (sub_ne_zero_of_ne (hne m (by omega) (fun h => him h.symm))),
          Lagrange.basisDivisor]
        ring
      · rw [if_neg him, if_neg him, mul_one]
        exact ih (Nat.le_of_succ_le hm)

/-- The Lagrange basis list built by `interpolate` denotes `Lagrange.basis`
over the index range of the sample list. -/
theorem toP_lagrangeBasis_eq (pts : List (Fp × Fp)) (i : ℕ)
    (hne : ∀ j, j < pts.length → j ≠ i →
      (pts.getD i (0, 0)).1 ≠ (pts.getD j (0, 0)).1) :
    toP (Poly.lagrangeBasis pts i) =
      Lagrange.basis (Finset.range pts.length) (fun j => (pts.getD j (0, 0)).1) i := by
  rw [Poly.lagrangeBasis, toP_lagrangeBasis_fold pts i hne pts.length le_rfl,
    Lagrange.basis, ← Finset.prod_filter, Finset.filter_ne]

/-- The accumulation fold of `interpolate` denotes the partial Lagrange
interpolation sum. -/
theorem toP_interpolate_fold (pts : List (Fp × Fp))
    (hne : ∀ i j, i < pts.length → j < pts.length → i ≠ j →
      (pts.getD i (0, 0)).1 ≠ (pts.getD j (0, 0)).1) :
    ∀ m, m ≤ pts.length →
      toP ((List.range m).foldl
        (fun result i =>
          Poly.add result (Poly.smul (Poly.lagrangeBasis pts i) (pts.getD i (0, 0)).2))
        [0]) =
      ∑ i ∈ Finset.range m,
        Polynomial.C (pts.getD i (0, 0)).2 *
          Lagrange.basis (Finset.range pts.length) (fun j => (pts.getD j (0, 0)).1) i := by
  intro m
  induction m with
  | zero =>
      intro _
      simpa using toP_zero
  | succ m ih =>
      intro hm
      rw [List.range_succ, List.foldl_append, List.foldl_cons, List.foldl_nil,
        toP_add, toP_smul, ih (Nat.le_of_succ_le hm), Finset.sum_range_succ,
        toP_lagrangeBasis_eq pts m
          (fun j hj hjm => hne m j (by omega) hj (fun h => hjm h.symm))]
      ring

/-- Interpolation: `Polynomial.interpolate` denotes Mathlib's `Lagrange.interpolate` over the
sample-index range. -/
theorem toP_interpolate_eq (pts : List (Fp × Fp))
    (hne : ∀ i j, i < pts.length → j < pts.length → i ≠ j →
      (pts.getD i (0, 0)).1 ≠ (pts.getD j (0, 0)).1) :
    toP (Poly.interpolate pts) =
      Lagrange.interpolate (Finset.range pts.length) (fun j => (pts.getD j (0, 0)).1)
        (fun j => (pts.getD j (0, 0)).2) := by
  rw [Poly.interpolate, toP_interpolate_fold pts hne pts.length le_rfl,
    Lagrange.interpolate_apply]

/-- A coefficient list of length at most `N` denotes a polynomial of degree
less than `N`. -/
theorem toP_degree_lt (q : List Fp) (N : ℕ) (h : q.length ≤ N) :
    (toP q).degree < (N : ℕ) := by
  rw [toP]
  refine lt_of_le_of_lt (Polynomial.degree_sum_le _ _) ?_
  refine (Finset.sup_lt_iff (show (⊥ : WithBot ℕ) < (N : ℕ) from by
    exact_mod_cast WithBot.bot_lt_coe N)).mpr ?_
  intro i hi
  refine lt_of_le_of_lt (Polynomial.degree_mul_le _ _) ?_
  refine lt_of_le_of_lt
    (add_le_add Polynomial.degree_C_le (le_of_eq (Polynomial.degree_X_pow i))) ?_
  rw [zero_add]
  exact_mod_cast lt_of_lt_of_le (Finset.mem_range.mp hi) h

/-- Distinct mapped first components give index-wise distinct sample
x-coordinates. -/
theorem nodup_firsts_pairwise (pts : List (Fp × Fp)) (h : (pts.map Prod.fst).Nodup) :
    ∀ i j, i < pts.length → j < pts.length → i ≠ j →
      (pts.getD i (0, 0)).1 ≠ (pts.getD j (0, 0)).1 := by
  intro i j hi hj hij heq
  have hinj := List.nodup_iff_injective_get.mp h
  have hi' : i < (pts.map Prod.fst).length := by simpa using hi
  have hj' : j < (pts.map Prod.fst).length := by simpa using hj
  have hget : (pts.map Prod.fst).get ⟨i, hi'⟩ = (pts.map Prod.fst).get ⟨j, hj'⟩ := by
    simp only [List.get_eq_getElem, List.getElem_map]
    rw [← List.getD_eq_getElem pts (0, 0) hi, ← List.getD_eq_getElem pts (0, 0) hj]
    exact heq
  exact hij (by simpa using congrArg Fin.val (hinj hget))

/-! ### Claim theorems -/

/-- C1 (amended): when the two compared values are equal, `compare_bits`
returns `0`, but then `max_two` returns the second operand's value, which
equals the first's, so `find_max`'s test `max_val == current_values[i]`
succeeds and the FIRST (left) operand wins the pairing (left-biased
tie-break); in particular, for the bid list [10, 10, 5, 5] with k = 5,
`find_max` returns winner index 0. -/
theorem C1_find_max_tie_left_biased :
    (∀ (v : ℤ) (k : ℕ),
      Circuit.compare_bits (Circuit.bit_decompose v k) (Circuit.bit_decompose v k) = 0) ∧
    Circuit.find_max [10, 10, 5, 5] 5 = (10, 0) := by
  refine ⟨fun v k => ?_, by decide⟩
  unfold Circuit.compare_bits
  refine foldl_pyadd_zero _ (fun j => ?_) _
  rcases bit_decompose_getD v k j with h | h <;> rw [h] <;>
    norm_num [PyField.mul, PyField.sub]

/-- C1 counterexample: `find_max` on the tie list [10, 10, 5, 5] returns
winner index 0, not 1 as the claim states. -/
theorem C1_find_max_tie_counterexample :
    Circuit.find_max [10, 10, 5, 5] 5 = (10, 0) ∧
    Circuit.find_max [10, 10, 5, 5] 5 ≠ (10, 1) := by decide

/-- C2 (amended): `_check_happy` verifies `my_row(j) == re` but evaluates the
column polynomial at the receiver's OWN id — `my_col(my_id) == ce` — rather
than at the sender `j`; any failing sub-share (or a missing dealer share)
makes it report unhappy. -/
theorem C2_check_happy_characterization :
    ∀ (pid : Fp) (row col : List Fp) (shares : List (Fp × Fp × Fp)),
      (CSS.check_happy pid (some (row, col)) shares = true ↔
        ∀ s ∈ shares, Poly.eval row s.1 = s.2.1 ∧ Poly.eval col pid = s.2.2) ∧
      CSS.check_happy pid none shares = false := by
  intro pid row col shares
  refine ⟨?_, rfl⟩
  simp [CSS.check_happy, List.all_eq_true, Bool.and_eq_true, decide_eq_true_iff]

/-- C2 counterexample: a receiver (id 2) with row polynomial `0` and column
polynomial `x`, holding the single sub-share `(j = 1, re = 0, ce = 2)`, is
happy under the code (`my_col(2) = 2 = ce`), while the claimed check
`my_col(j) == ce` fails (`my_col(1) = 1 ≠ 2`). -/
theorem C2_check_happy_counterexample :
    CSS.check_happy 2 (some ([0], [0, 1])) [(1, 0, 2)] = true ∧
    CSS.check_happy_spec 2 (some ([0], [0, 1])) [(1, 0, 2)] = false := by decide

/-- C3 (amended): the receiver proceeds only once `n − f` HAPPY messages
carrying `happy = true` have been counted (`happy_count` ignores `false`
messages), and it then returns its stored row/column polynomials exactly when
its OWN happiness check passed; otherwise — even with a full quorum of true
HAPPY messages — it returns the zero polynomials. -/
theorem C3_receive_share_completion_characterization :
    (∀ (pid : Fp) (rc : List Fp × List Fp) (shares : List (Fp × Fp × Fp)),
      (CSS.receive_share_result pid (some rc) shares = rc ∧
        CSS.check_happy pid (some rc) shares = true) ∨
      (CSS.receive_share_result pid (some rc) shares = ([0], [0]) ∧
        CSS.check_happy pid (some rc) shares = false)) ∧
    (∀ (pid : Fp) (shares : List (Fp × Fp × Fp)),
      CSS.receive_share_result pid none shares = ([0], [0])) ∧
    (∀ msgs : List Bool, CSS.happy_count msgs = msgs.count true) := by
  refine ⟨fun pid rc shares => ?_, fun pid shares => rfl, fun msgs => ?_⟩
  · cases h : CSS.check_happy pid (some rc) shares with
    | true => exact Or.inl ⟨by simp [CSS.receive_share_result, h], rfl⟩
    | false => exact Or.inr ⟨by simp [CSS.receive_share_result, h], rfl⟩
  · induction msgs with
    | nil => rfl
    | cons b rest ih => cases b <;> simp [CSS.happy_count, List.filter] at ih ⊢ <;> omega

/-- C3 counterexample: with `n = 4, f = 1`, a receiver that has collected
three `happy = true` messages (`happy_count = 3 ≥ n − f`) but whose own
happiness check failed returns the zero polynomials instead of completing
with its stored polynomials. -/
theorem C3_receive_share_counterexample :
    (4 : ℕ) - 1 ≤ CSS.happy_count [true, true, true] ∧
    CSS.check_happy 2 (some ([5], [7])) [(1, 1, 0)] = false ∧
    CSS.receive_share_result 2 (some ([5], [7])) [(1, 1, 0)] = ([0], [0]) ∧
    CSS.receive_share_result 2 (some ([5], [7])) [(1, 1, 0)] ≠
      (([5], [7]) : List Fp × List Fp) := by decide

/-- C4: the ABA coin step calls `beacon.request(self.party_id)` with NO index
argument, so the beacon resolves each call to its own post-incremented
sequential counter: two parties reaching the coin of the same instance and
round obtain DIFFERENT indices (0 and then 1 from a fresh beacon), not a
common index encoding `(instance_id, r)`; moreover the first caller's view
stays `none` (blocked), since the `f + 1` threshold can never be met at an
index only one party ever requests. -/
theorem C4_aba_coin_uses_sequential_indices :
    (ABA.coinRequest 1 Beacon.initState 0 42).2.1 = 0 ∧
    (ABA.coinRequest 1 Beacon.initState 0 42).2.2 = none ∧
    (ABA.coinRequest 1 (ABA.coinRequest 1 Beacon.initState 0 42).1 1 42).2.1 = 1 ∧
    (ABA.coinRequest 1 Beacon.initState 0 42).2.1 ≠
      (ABA.coinRequest 1 (ABA.coinRequest 1 Beacon.initState 0 42).1 1 42).2.1 := by
  decide

/-- C5: beacon invariants — once a value exists for an index it had at least
`f + 1` distinct requesters; the value survives any further requests
unchanged (so at most one value is ever generated per index); and any later
request resolving to that index returns that identical value. -/
theorem C5_beacon_invariants (f : ℕ) (es1 es2 : List (ℕ × Option ℕ × ℕ)) (i v : ℕ)
    (h : (Beacon.run f Beacon.initState es1).values i = some v) :
    f + 1 ≤ ((Beacon.run f Beacon.initState es1).requests i).card ∧
    (Beacon.run f Beacon.initState (es1 ++ es2)).values i = some v ∧
    ∀ p idx fresh,
      (Beacon.request f (Beacon.run f Beacon.initState (es1 ++ es2)) p idx fresh).2.1 = i →
      (Beacon.request f (Beacon.run f Beacon.initState (es1 ++ es2)) p idx fresh).2.2 =
        some v := by
  have hinv : Beacon.Inv f (Beacon.run f Beacon.initState es1) :=
    beacon_run_inv f es1 Beacon.initState (fun j w hw => by
      exact absurd hw (by simp [Beacon.initState]))
  have hpersist : (Beacon.run f Beacon.initState (es1 ++ es2)).values i = some v := by
    rw [beacon_run_append]
    exact beacon_run_values_mono f es2 _ i v h
  refine ⟨hinv i v h, hpersist, fun p idx fresh hres => ?_⟩
  rw [beacon_request_ret, hres]
  exact beacon_request_values_mono f _ p idx fresh i v hpersist

/-- C5 witness: `f = 1`; parties 0 and 1 request index 5, the second request
reaches the threshold and generates the value 77; a later request by party 2
returns the same 77. -/
theorem C5_beacon_invariants_witness :
    1 + 1 ≤
      ((Beacon.run 1 Beacon.initState [(0, some 5, 99), (1, some 5, 77)]).requests 5).card ∧
    (Beacon.run 1 Beacon.initState ([(0, some 5, 99), (1, some 5, 77)] ++ [])).values 5 =
      some 77 ∧
    (Beacon.request 1 (Beacon.run 1 Beacon.initState ([(0, some 5, 99), (1, some 5, 77)] ++ []))
        2 (some 5) 0).2.2 = some 77 := by
  have h := C5_beacon_invariants 1 [(0, some 5, 99), (1, some 5, 77)] [] 5 77 (by decide)
  exact ⟨h.1, h.2.1, h.2.2 2 (some 5) 0 (by decide)⟩

/-- C6: after `n − f` EST messages are counted in round `r`, the AUX value is
selected deterministically: the party's own estimate when its EST count
reaches `n − f`; otherwise the bit with the strictly larger EST count when
one exists; otherwise (tied counts) the null value. -/
theorem C6_aux_selection (n f c0 c1 est : ℕ) (hest : est = 0 ∨ est = 1)
    (hwait : n - f ≤ c0 + c1) :
    (n - f ≤ (if est = 0 then c0 else c1) → ABA.auxValue n f c0 c1 est = some est) ∧
    ((if est = 0 then c0 else c1) < n - f →
      (c1 < c0 → ABA.auxValue n f c0 c1 est = some 0) ∧
      (c0 < c1 → ABA.auxValue n f c0 c1 est = some 1) ∧
      (c0 = c1 → ABA.auxValue n f c0 c1 est = none)) := by
  unfold ABA.auxValue
  constructor
  · intro h
    rw [if_pos h]
  · intro h
    rw [if_neg (not_le.mpr h)]
    refine ⟨fun hlt => ?_, fun hlt => ?_, fun heq => ?_⟩
    · rw [if_pos hlt]
    · rw [if_neg (by omega), if_pos hlt]
    · rw [if_neg (by omega), if_neg (by omega)]

/-- C6 witness: `n = 4, f = 1`, EST counts `c0 = 3, c1 = 0`, estimate `0`. -/
theorem C6_aux_selection_witness :
    (4 - 1 ≤ (if (0 : ℕ) = 0 then 3 else 0) → ABA.auxValue 4 1 3 0 0 = some 0) ∧
    ((if (0 : ℕ) = 0 then 3 else 0) < 4 - 1 →
      (0 < 3 → ABA.auxValue 4 1 3 0 0 = some 0) ∧
      (3 < 0 → ABA.auxValue 4 1 3 0 0 = some 1) ∧
      (3 = 0 → ABA.auxValue 4 1 3 0 0 = none)) :=
  C6_aux_selection 4 1 3 0 0 (Or.inl rfl) (by decide)

/-- C7: for every bivariate coefficient grid of degree `d` and all points
`i, j`, the derived row and column polynomials satisfy the cross-check
`row_polynomial(i).eval(j) == col_polynomial(j).eval(i) == p(i, j)`. -/
theorem C7_bivariate_cross_check (d : ℕ) (c : ℕ → ℕ → Fp) (i j : Fp) :
    Poly.eval (Poly.rowPolynomial d c i) j = Poly.bivarEval d c i j ∧
    Poly.eval (Poly.colPolynomial d c j) i = Poly.bivarEval d c i j := by
  constructor
  · rw [Poly.rowPolynomial, poly_eval_range_map, Poly.bivarEval, Finset.sum_comm]
    refine Finset.sum_congr rfl fun b _ => ?_
    rw [Finset.sum_mul]
  · rw [Poly.colPolynomial, poly_eval_range_map, Poly.bivarEval]
    refine Finset.sum_congr rfl fun a _ => ?_
    rw [Finset.sum_mul]
    refine Finset.sum_congr rfl fun b _ => ?_
    ring

/-- C8: interpolation on `d + 1` distinct-point samples of a degree-`d`
polynomial `q` reproduces `q` exactly at every point of the field. -/
theorem C8_interpolate_reproduces (d : ℕ) (q : List Fp) (pts : List (Fp × Fp))
    (hlen : pts.length = d + 1) (hq : q.length ≤ d + 1)
    (hdist : (pts.map Prod.fst).Nodup)
    (hsamp : ∀ s ∈ pts, s.2 = Poly.eval q s.1) (x : Fp) :
    Poly.eval (Poly.interpolate pts) x = Poly.eval q x := by
  have hne := nodup_firsts_pairwise pts hdist
  have hinj : Set.InjOn (fun j => (pts.getD j (0, 0)).1) ↑(Finset.range pts.length) := by
    intro i hi j hj hvij
    by_contra hij
    exact hne i j (by simpa using hi) (by simpa using hj) hij hvij
  have hdeg : (toP q).degree < (((Finset.range pts.length).card : ℕ) : WithBot ℕ) := by
    rw [Finset.card_range, hlen]
    exact toP_degree_lt q (d + 1) hq
  have heval : ∀ i ∈ Finset.range pts.length,
      (toP q).eval ((pts.getD i (0, 0)).1) = (pts.getD i (0, 0)).2 := by
    intro i hi
    rw [toP_eval]
    have hmem : pts.getD i (0, 0) ∈ pts := by
      rw [List.getD_eq_getElem pts (0, 0) (Finset.mem_range.mp hi)]
      exact List.getElem_mem _
    exact (hsamp _ hmem).symm
  have key : toP (Poly.interpolate pts) = toP q := by
    rw [toP_interpolate_eq pts hne,
      ← Lagrange.eq_interpolate_of_eval_eq _ hinj hdeg heval]
  rw [← toP_eval, ← toP_eval, key]

/-- C8 witness: `d = 1`, `q = 2 + 3x`, samples `(0, 2), (1, 5)`, checked at
the fresh point `x = 7`. -/
theorem C8_interpolate_reproduces_witness :
    ([(0, 2), (1, 5)] : List (Fp × Fp)).length = 1 + 1 ∧
    ([2, 3] : List Fp).length ≤ 1 + 1 ∧
    (([(0, 2), (1, 5)] : List (Fp × Fp)).map Prod.fst).Nodup ∧
    Poly.eval (Poly.interpolate [(0, 2), (1, 5)]) 7 = Poly.eval [2, 3] 7 :=
  ⟨by decide, by decide, by decide,
    C8_interpolate_reproduces 1 [2, 3] [(0, 2), (1, 5)] (by decide) (by decide)
      (by decide)
      (by
        intro s hs
        rcases List.mem_cons.mp hs with rfl | hs'
        · rfl
        · rcases List.mem_cons.mp hs' with rfl | hs''
          · rfl
          · exact absurd hs'' (List.not_mem_nil _))
      7⟩

/-- C9: `bit_decompose(v, k)` returns exactly `k` bits, each `0` or `1`, whose
weighted sum `Σ b_i·2^i` is `v mod 2^k` — values outside `[0, 2^k)` are
silently truncated to their `k` low-order bits. -/
theorem C9_bit_decompose_truncates (v : ℤ) (k : ℕ) (hv : 0 ≤ v) :
    (Circuit.bit_decompose v k).length = k ∧
    (∀ b ∈ Circuit.bit_decompose v k, b = 0 ∨ b = 1) ∧
    ∑ i ∈ Finset.range k, (Circuit.bit_decompose v k).getD i 0 * 2 ^ i = v % 2 ^ k := by
  refine ⟨by simp [Circuit.bit_decompose], ?_, ?_⟩
  · intro b hb
    unfold Circuit.bit_decompose at hb
    rcases List.mem_map.mp hb with ⟨i, _, rfl⟩
    exact Int.emod_two_eq_zero_or_one _
  · obtain ⟨n, rfl⟩ := Int.eq_ofNat_of_zero_le hv
    have hsum : ∀ i ∈ Finset.range k,
        (Circuit.bit_decompose (n : ℤ) k).getD i 0 * 2 ^ i =
          ((n / 2 ^ i % 2 * 2 ^ i : ℕ) : ℤ) := by
      intro i hi
      unfold Circuit.bit_decompose
      rw [List.getD_eq_getElem _ _ (by simpa using Finset.mem_range.mp hi)]
      simp only [List.getElem_map, List.getElem_range]
      push_cast
      ring
    rw [Finset.sum_congr rfl hsum, ← Nat.cast_sum, natBitSum]
    push_cast
    ring

/-- C9 witness: `v = 37, k = 3` (37 is truncated to 37 mod 8 = 5). -/
theorem C9_bit_decompose_truncates_witness :
    0 ≤ (37 : ℤ) ∧ (Circuit.bit_decompose 37 3).length = 3 ∧
    ∑ i ∈ Finset.range 3, (Circuit.bit_decompose 37 3).getD i 0 * 2 ^ i = (37 : ℤ) % 2 ^ 3 :=
  ⟨by decide, (C9_bit_decompose_truncates 37 3 (by decide)).1,
    (C9_bit_decompose_truncates 37 3 (by decide)).2.2⟩

/-- C10: `local_add` and `local_multiply_constant` are total: a missing
operand share is read as `0`, the field result is stored under `result_id`
and the stored value is returned; on a store with no entries at all,
`local_add` stores and returns `0`. -/
theorem C10_local_ops_default_zero :
    ∀ (store : String → Option Fp) (a b out : String) (c : Fp),
      (Party.local_add store a b out).2 = (store a).getD 0 + (store b).getD 0 ∧
      (Party.local_add store a b out).1 out = some ((Party.local_add store a b out).2) ∧
      (Party.local_multiply_constant store a c out).2 = (store a).getD 0 * c ∧
      (Party.local_multiply_constant store a c out).1 out =
        some ((Party.local_multiply_constant store a c out).2) ∧
      (Party.local_add (fun _ => none) a b out).2 = 0 ∧
      (Party.local_add (fun _ => none) a b out).1 out = some 0 := by
  intro store a b out c
  refine ⟨rfl, ?_, rfl, ?_, ?_, ?_⟩ <;>
    simp [Party.local_add, Party.local_multiply_constant]
